import Mathlib

/-!
Verification of the hybrid retrieval engine of the jurisprudencia platform,
embedded from src/jurisprudencia-platform/src/database/init_pgvector.sql.

Tables are lists of row structures; the stored functions
search_similar_embeddings and hybrid_search become list pipelines whose
ORDER BY is a stable insertion sort on the sort key (ties keep row order,
exactly one execution allowed by an ORDER BY with no secondary key),
SQL joins become lookups with find? on the primary key, and the cosine
distance operator is an explicit function parameter.
-/

namespace JurisVector

/-- Embedding vectors, the vector(384) column, as rational coordinate lists. -/
abbrev Vec := List ℚ

/-- A row of the cases table (id, case_number). -/
structure CaseRow where
  id : ℕ
  caseNumber : String
  deriving Repr, DecidableEq

/-- A row of the documents table (id, case_id). -/
structure DocumentRow where
  id : ℕ
  caseId : ℕ
  deriving Repr, DecidableEq

/-- A row of the text_chunks table (id, document_id, chunk_text). -/
structure ChunkRow where
  id : ℕ
  documentId : ℕ
  text : String
  deriving Repr, DecidableEq

/-- A row of the embeddings_vector table (case_id, chunk_id, embedding, model_name). -/
structure EmbeddingRow where
  caseId : ℕ
  chunkId : ℕ
  embedding : Vec
  modelName : String
  deriving Repr, DecidableEq

/-- The database state: the four tables touched by init_pgvector.sql. -/
structure DB where
  cases : List CaseRow
  documents : List DocumentRow
  chunks : List ChunkRow
  embeddings : List EmbeddingRow
  deriving Repr, DecidableEq

/-- Suffixes of a character list, longest first. -/
def tailsOf : List Char → List (List Char)
  | [] => [[]]
  | c :: t => (c :: t) :: tailsOf t

/-- SQL LIKE pattern matching over character lists: a percent sign matches any
character sequence (some suffix of the text matches the rest of the pattern),
an underscore matches any single character, any other pattern character
matches itself. -/
def likeMatch : List Char → List Char → Bool
  | [], s => s.isEmpty
  | p :: ps, s =>
    if p = '%' then (tailsOf s).any (fun t => likeMatch ps t)
    else
      match s with
      | [] => false
      | c :: t => (p = '_' || p = c) && likeMatch ps t

/-- SQL LOWER over a string, as a character list. -/
def lowerChars (s : String) : List Char := s.toList.map Char.toLower

/-- The WHERE test of the keyword_results CTE in hybrid_search:
LOWER(chunk_text) LIKE the concatenation percent, LOWER(keyword), percent. -/
def likeContains (text kw : String) : Bool :=
  likeMatch ('%' :: (lowerChars kw ++ ['%'])) (lowerChars text)

/-- Decidability of the descending-by-key comparison used to model ORDER BY. -/
instance decRelByKey {α : Type} (key : α → ℚ) :
    DecidableRel (fun a b : α => key b ≤ key a) :=
  fun a b => inferInstanceAs (Decidable (key b ≤ key a))

/-- Model of SQL ORDER BY key DESC: a stable insertion sort, descending on the
key; rows with equal keys keep their table order, which is one of the
executions an ORDER BY without a secondary sort key permits. -/
def sortByScore {α : Type} (key : α → ℚ) (l : List α) : List α :=
  @List.insertionSort α (fun a b => key b ≤ key a) (decRelByKey key) l

/-- An output row of search_similar_embeddings. -/
structure SimResult where
  caseId : ℕ
  chunkId : ℕ
  similarity : ℚ
  caseNumber : String
  chunkText : String
  deriving Repr, DecidableEq

/-- The joined row set of search_similar_embeddings before WHERE and ORDER BY:
every embeddings_vector row inner-joined to its case and its chunk, with
similarity defined as 1 - (embedding <=> query_embedding). -/
def simJoinRows (dist : Vec → Vec → ℚ) (db : DB) (q : Vec) : List SimResult :=
  db.embeddings.filterMap fun ev =>
    match db.cases.find? (fun c => c.id == ev.caseId),
          db.chunks.find? (fun tc => tc.id == ev.chunkId) with
    | some c, some tc =>
        some ⟨ev.caseId, ev.chunkId, 1 - dist ev.embedding q, c.caseNumber, tc.text⟩
    | _, _ => none

/-- search_similar_embeddings: keep rows with similarity at least the
threshold, order by distance ascending, that is by similarity descending
(similarity = 1 - distance reverses the order exactly), limit the count. -/
def searchSimilarEmbeddings (dist : Vec → Vec → ℚ) (db : DB) (q : Vec)
    (limitCount : ℕ) (similarityThreshold : ℚ) : List SimResult :=
  (sortByScore (fun r => r.similarity)
      ((simJoinRows dist db q).filter
        (fun r => similarityThreshold ≤ r.similarity))).take limitCount

/-- A row of the semantic_results CTE of hybrid_search. -/
structure SemRow where
  caseId : ℕ
  chunkId : ℕ
  semanticScore : ℚ
  deriving Repr, DecidableEq

/-- semantic_results CTE: every embedding row with its semantic score
1 - (embedding <=> query_embedding), ordered by distance ascending, that is
by semantic score descending, limited to n rows (hybrid_search passes
limit_count * 2). -/
def semanticResults (dist : Vec → Vec → ℚ) (db : DB) (q : Vec) (n : ℕ) :
    List SemRow :=
  (sortByScore (fun s => s.semanticScore)
      (db.embeddings.map
        (fun ev => ⟨ev.caseId, ev.chunkId, 1 - dist ev.embedding q⟩))).take n

/-- A row of the keyword_results CTE of hybrid_search. -/
structure KwRow where
  caseId : ℕ
  chunkId : ℕ
  keywordScore : ℚ
  deriving Repr, DecidableEq

/-- COUNT(DISTINCT keyword) of the keywords matching the chunk text under the
case-insensitive LIKE containment test, as the list of distinct matching
keyword values. -/
def matchedKeywords (kws : List String) (text : String) : List String :=
  kws.dedup.filter (fun kw => likeContains text kw)

/-- The grouped rows of the keyword_results CTE before ORDER BY and LIMIT:
documents joined to text_chunks, a group per chunk, scored as the distinct
matched keyword count over ARRAY_LENGTH(keywords, 1), with the HAVING clause
dropping groups with no match (an empty keyword array unnests to no rows,
so it also yields no groups). -/
def keywordRows (db : DB) (kws : List String) : List KwRow :=
  db.chunks.filterMap fun tc =>
    match db.documents.find? (fun d => d.id == tc.documentId) with
    | some d =>
        if (matchedKeywords kws tc.text).length = 0 then none
        else some ⟨d.caseId, tc.id,
          ((matchedKeywords kws tc.text).length : ℚ) / (kws.length : ℚ)⟩
    | none => none

/-- keyword_results CTE: the grouped rows ordered by keyword_score descending,
limited to n rows (hybrid_search passes limit_count * 2). -/
def keywordResults (db : DB) (kws : List String) (n : ℕ) : List KwRow :=
  (sortByScore (fun k => k.keywordScore) (keywordRows db kws)).take n

/-- An output row of hybrid_search. -/
structure HSResult where
  caseId : ℕ
  caseNumber : String
  chunkId : ℕ
  chunkText : String
  semanticScore : ℚ
  keywordScore : ℚ
  finalScore : ℚ
  deriving Repr, DecidableEq

/-- FULL OUTER JOIN of the two CTEs ON case_id and chunk_id: every semantic
row paired with its matching keyword row when one exists, then the keyword
rows with no semantic partner. -/
def fullJoin (sr : List SemRow) (kr : List KwRow) :
    List (Option SemRow × Option KwRow) :=
  sr.map (fun s =>
      (some s, kr.find? (fun k => k.caseId == s.caseId && k.chunkId == s.chunkId)))
    ++ (kr.filter (fun k =>
        !(sr.any (fun s => s.caseId == k.caseId && s.chunkId == k.chunkId)))).map
        (fun k => ((none : Option SemRow), some k))

/-- The COALESCE columns of the combined SELECT of hybrid_search:
case_id, chunk_id, semantic_score, keyword_score with a missing side read
as 0 (a joined pair always has at least one side). -/
def coalesced : Option SemRow × Option KwRow → ℕ × ℕ × ℚ × ℚ
  | (some s, some k) => (s.caseId, s.chunkId, s.semanticScore, k.keywordScore)
  | (some s, none) => (s.caseId, s.chunkId, s.semanticScore, 0)
  | (none, some k) => (k.caseId, k.chunkId, 0, k.keywordScore)
  | (none, none) => (0, 0, 0, 0)

/-- The combined SELECT DISTINCT row set of hybrid_search before ORDER BY and
LIMIT: each joined pair, coalesced, inner-joined to cases and text_chunks,
with final_score the weighted sum of the two scores. -/
def hybridRows (dist : Vec → Vec → ℚ) (db : DB) (q : Vec) (kws : List String)
    (limitCount : ℕ) (w : ℚ) : List HSResult :=
  ((fullJoin (semanticResults dist db q (limitCount * 2))
      (keywordResults db kws (limitCount * 2))).filterMap fun p =>
    match db.cases.find? (fun c => c.id == (coalesced p).1),
          db.chunks.find? (fun tc => tc.id == (coalesced p).2.1) with
    | some c, some tc =>
        some ⟨(coalesced p).1, c.caseNumber, (coalesced p).2.1, tc.text,
          (coalesced p).2.2.1, (coalesced p).2.2.2,
          (coalesced p).2.2.1 * w + (coalesced p).2.2.2 * (1 - w)⟩
    | _, _ => none).dedup

/-- hybrid_search: the combined distinct rows ordered by final_score
descending, limited to limit_count. -/
def hybridSearch (dist : Vec → Vec → ℚ) (db : DB) (q : Vec) (kws : List String)
    (limitCount : ℕ) (w : ℚ) : List HSResult :=
  (sortByScore (fun r => r.finalScore)
      (hybridRows dist db q kws limitCount w)).take limitCount

/-- The score recorded for a candidate key in the semantic pool, 0 when the
key is missing from the pool. -/
def poolSemScore (sr : List SemRow) (cid chid : ℕ) : ℚ :=
  match sr.find? (fun s => s.caseId == cid && s.chunkId == chid) with
  | some s => s.semanticScore
  | none => 0

/-- The score recorded for a candidate key in the keyword pool, 0 when the
key is missing from the pool. -/
def poolKwScore (kr : List KwRow) (cid chid : ℕ) : ℚ :=
  match kr.find? (fun k => k.caseId == cid && k.chunkId == chid) with
  | some k => k.keywordScore
  | none => 0

/-- Deleting a text_chunks row: the cleanup_embeddings_on_chunk_delete trigger
runs cleanup_orphan_embeddings before the delete, removing every
embeddings_vector row whose chunk_id is the deleted id (the ON DELETE CASCADE
foreign key on chunk_id removes the same rows). -/
def deleteChunk (db : DB) (cid : ℕ) : DB :=
  { db with
    chunks := db.chunks.filter (fun tc => tc.id != cid),
    embeddings := db.embeddings.filter (fun e => e.chunkId != cid) }

/-- Modelled from the spec: deleting a Document. The text_chunks DDL is not in
the repository sources (only its indexes and the trigger are), and the spec
states that a Document owns its Chunks and deleting the Document deletes its
Chunks; each cascaded chunk delete fires the embedding cleanup of
init_pgvector.sql. -/
def deleteDocument (db : DB) (did : ℕ) : DB :=
  { db with
    documents := db.documents.filter (fun d => d.id != did),
    chunks := db.chunks.filter (fun tc => tc.documentId != did),
    embeddings := db.embeddings.filter (fun e =>
      !((db.chunks.filter (fun tc => tc.documentId == did)).any
          (fun tc => tc.id == e.chunkId))) }

/-- Errors of the vector store operations. -/
inductive StoreError where
  | DimensionMismatch
  deriving Repr, DecidableEq

/-- Modelled from the spec: the Vector Store Upsert operation. The repository
ships only the embeddings_vector DDL, a vector(384) column with a
UNIQUE (chunk_id) constraint, not the insert statement; per the spec the
operation inserts or replaces the embedding keyed by chunk id, and per the
column type a vector whose length is not the declared dimension 384 is
rejected with DimensionMismatch and nothing is stored. -/
def upsert (db : DB) (caseId chunkId : ℕ) (v : Vec) (modelName : String) :
    Except StoreError DB :=
  if v.length = 384 then
    Except.ok { db with embeddings :=
      db.embeddings.filter (fun e => e.chunkId != chunkId) ++
        [⟨caseId, chunkId, v, modelName⟩] }
  else
    Except.error StoreError.DimensionMismatch

/-- The vector dimension the schema declares for a model name: the embedding
column is commented as dimension 384 for all-MiniLM-L6-v2, the default
model_name; no other model is declared. -/
def declaredDim (s : String) : Option ℕ :=
  if s = "all-MiniLM-L6-v2" then some 384 else none

/-- Primary key and unique constraints of the schema: cases(id),
documents(id), text_chunks(id) are primary keys and
embeddings_vector_chunk_unique makes chunk_id unique. -/
def UniqueIds (db : DB) : Prop :=
  db.cases.Pairwise (fun a b => a.id ≠ b.id) ∧
  db.documents.Pairwise (fun a b => a.id ≠ b.id) ∧
  db.chunks.Pairwise (fun a b => a.id ≠ b.id) ∧
  db.embeddings.Pairwise (fun a b => a.chunkId ≠ b.chunkId)

/-- Referential integrity of the schema foreign keys: embeddings reference a
case and a chunk, chunks reference a document, documents reference a case. -/
def RefIntegrity (db : DB) : Prop :=
  (∀ e ∈ db.embeddings,
    (∃ c ∈ db.cases, c.id = e.caseId) ∧ (∃ tc ∈ db.chunks, tc.id = e.chunkId)) ∧
  (∀ tc ∈ db.chunks, ∃ d ∈ db.documents, d.id = tc.documentId) ∧
  (∀ d ∈ db.documents, ∃ c ∈ db.cases, c.id = d.caseId)

instance (db : DB) : Decidable (UniqueIds db) := by
  unfold UniqueIds
  infer_instance

instance (db : DB) : Decidable (RefIntegrity db) := by
  unfold RefIntegrity
  infer_instance


/-! Helper lemmas about the ORDER BY model. -/

theorem sortByScore_perm {α : Type} (key : α → ℚ) (l : List α) :
    (sortByScore key l).Perm l :=
  List.perm_insertionSort _ l

theorem mem_sortByScore {α : Type} {key : α → ℚ} {x : α} {l : List α} :
    x ∈ sortByScore key l ↔ x ∈ l :=
  (sortByScore_perm key l).mem_iff

theorem sortByScore_sorted {α : Type} (key : α → ℚ) (l : List α) :
    (sortByScore key l).Sorted (fun a b => key b ≤ key a) := by
  haveI : IsTotal α (fun a b => key b ≤ key a) :=
    ⟨fun a b => le_total (key b) (key a)⟩
  haveI : IsTrans α (fun a b => key b ≤ key a) :=
    ⟨fun _ _ _ h1 h2 => le_trans h2 h1⟩
  exact List.sorted_insertionSort _ l

theorem take_length_le {α : Type} (l : List α) (n : ℕ) : (l.take n).length ≤ n := by
  simp

theorem take_sortByScore_sorted {α : Type} (key : α → ℚ) (l : List α) (n : ℕ) :
    ((sortByScore key l).take n).Sorted (fun a b => key b ≤ key a) :=
  List.Pairwise.sublist (List.take_sublist n _) (sortByScore_sorted key l)

theorem mem_of_mem_take_sortByScore {α : Type} {key : α → ℚ} {x : α}
    {l : List α} {n : ℕ} (h : x ∈ (sortByScore key l).take n) : x ∈ l :=
  mem_sortByScore.mp ((List.take_sublist n _).mem h)

theorem take_sortByScore_top {α : Type} {key : α → ℚ} {l : List α} {n : ℕ}
    {c : α} (hc : c ∈ l) (hout : c ∉ (sortByScore key l).take n) :
    ∀ r ∈ (sortByScore key l).take n, key c ≤ key r := by
  intro r hr
  have hcs : c ∈ sortByScore key l := mem_sortByScore.mpr hc
  have hsplit := List.take_append_drop n (sortByScore key l)
  have hcd : c ∈ (sortByScore key l).drop n := by
    rcases List.mem_append.mp (hsplit ▸ hcs) with h | h
    · exact absurd h hout
    · exact h
  exact (sortByScore_sorted key l).rel_of_mem_take_of_mem_drop hr hcd

theorem take_sortByScore_all {α : Type} {key : α → ℚ} {l : List α} {n : ℕ}
    (hn : l.length ≤ n) {x : α} (hx : x ∈ l) : x ∈ (sortByScore key l).take n := by
  have hlen : (sortByScore key l).length = l.length :=
    (sortByScore_perm key l).length_eq
  rw [List.take_of_length_le (by rw [hlen]; exact hn)]
  exact mem_sortByScore.mpr hx

/-! Helper lemmas about find? under key uniqueness. -/

theorem find?_eq_some_of_mem {α : Type} {p : α → Bool} {l : List α} {a : α}
    (hmem : a ∈ l) (hpa : p a = true)
    (huniq : l.Pairwise (fun x y => p x = true → p y = true → x = y)) :
    l.find? p = some a := by
  induction l with
  | nil => cases hmem
  | cons x t ih =>
    rcases List.pairwise_cons.mp huniq with ⟨hx, ht⟩
    rcases List.mem_cons.mp hmem with rfl | hmem'
    · exact List.find?_cons_of_pos t hpa
    · by_cases hpx : p x = true
      · have hxa : x = a := hx a hmem' hpx hpa
        subst hxa
        exact List.find?_cons_of_pos t hpx
      · rw [List.find?_cons_of_neg t (by simp [hpx])]
        exact ih hmem' ht

theorem mem_unique_of_pairwise_ne {α : Type} {f : α → ℕ} {l : List α}
    (hp : l.Pairwise (fun x y => f x ≠ f y)) {a b : α}
    (ha : a ∈ l) (hb : b ∈ l) (hf : f a = f b) : a = b := by
  induction l with
  | nil => cases ha
  | cons x t ih =>
    rcases List.pairwise_cons.mp hp with ⟨hx, ht⟩
    rcases List.mem_cons.mp ha with rfl | ha' <;>
      rcases List.mem_cons.mp hb with rfl | hb'
    · rfl
    · exact absurd hf (hx b hb')
    · exact absurd hf.symm (hx a ha')
    · exact ih ht ha' hb'

/-! Membership lemmas for the query pipelines. -/

theorem mem_simJoinRows {dist : Vec → Vec → ℚ} {db : DB} {q : Vec}
    {r : SimResult} (h : r ∈ simJoinRows dist db q) :
    ∃ ev ∈ db.embeddings, r.caseId = ev.caseId ∧ r.chunkId = ev.chunkId ∧
      r.similarity = 1 - dist ev.embedding q := by
  rcases List.mem_filterMap.mp h with ⟨ev, hev, heq⟩
  refine ⟨ev, hev, ?_⟩
  cases hfc : db.cases.find? (fun c => c.id == ev.caseId) with
  | none => rw [hfc] at heq; cases heq
  | some c =>
    cases hft : db.chunks.find? (fun tc => tc.id == ev.chunkId) with
    | none => rw [hfc, hft] at heq; cases heq
    | some tc =>
      rw [hfc, hft] at heq
      cases heq
      exact ⟨rfl, rfl, rfl⟩

theorem mem_semanticResults {dist : Vec → Vec → ℚ} {db : DB} {q : Vec} {n : ℕ}
    {s : SemRow} (h : s ∈ semanticResults dist db q n) :
    ∃ ev ∈ db.embeddings, s.caseId = ev.caseId ∧ s.chunkId = ev.chunkId ∧
      s.semanticScore = 1 - dist ev.embedding q := by
  have h' : s ∈ db.embeddings.map
      (fun ev => (⟨ev.caseId, ev.chunkId, 1 - dist ev.embedding q⟩ : SemRow)) :=
    mem_of_mem_take_sortByScore h
  rcases List.mem_map.mp h' with ⟨ev, hev, heq⟩
  cases heq
  exact ⟨ev, hev, rfl, rfl, rfl⟩

theorem mem_keywordRows {db : DB} {kws : List String} {k : KwRow}
    (h : k ∈ keywordRows db kws) :
    ∃ tc ∈ db.chunks, ∃ d ∈ db.documents, d.id = tc.documentId ∧
      k.caseId = d.caseId ∧ k.chunkId = tc.id ∧
      matchedKeywords kws tc.text ≠ [] ∧
      k.keywordScore =
        ((matchedKeywords kws tc.text).length : ℚ) / (kws.length : ℚ) := by
  rcases List.mem_filterMap.mp h with ⟨tc, htc, heq⟩
  cases hfd : db.documents.find? (fun d => d.id == tc.documentId) with
  | none => rw [hfd] at heq; cases heq
  | some d =>
    rw [hfd] at heq
    have heq' : (if (matchedKeywords kws tc.text).length = 0 then none
        else some (⟨d.caseId, tc.id,
          ((matchedKeywords kws tc.text).length : ℚ) / (kws.length : ℚ)⟩ : KwRow))
        = some k := heq
    by_cases hm : (matchedKeywords kws tc.text).length = 0
    · rw [if_pos hm] at heq'; cases heq'
    · rw [if_neg hm] at heq'
      cases heq'
      refine ⟨tc, htc, d, List.mem_of_find?_eq_some hfd, ?_, rfl, rfl, ?_, rfl⟩
      · have := List.find?_some hfd
        simpa using this
      · exact fun hnil => hm (by rw [hnil]; rfl)

theorem keywordRows_complete {db : DB} {kws : List String} {tc : ChunkRow}
    (htc : tc ∈ db.chunks) (hd : ∃ d ∈ db.documents, d.id = tc.documentId)
    (hm : matchedKeywords kws tc.text ≠ []) :
    ∃ k ∈ keywordRows db kws, k.chunkId = tc.id := by
  have hs : (db.documents.find? (fun d => d.id == tc.documentId)).isSome := by
    rcases hd with ⟨d, hdm, hdi⟩
    exact List.find?_isSome.mpr ⟨d, hdm, by simp [hdi]⟩
  rcases Option.isSome_iff_exists.mp hs with ⟨d, hfd⟩
  refine ⟨⟨d.caseId, tc.id,
    ((matchedKeywords kws tc.text).length : ℚ) / (kws.length : ℚ)⟩, ?_, rfl⟩
  apply List.mem_filterMap.mpr
  refine ⟨tc, htc, ?_⟩
  rw [hfd]
  show (if (matchedKeywords kws tc.text).length = 0 then none
      else some (⟨d.caseId, tc.id,
        ((matchedKeywords kws tc.text).length : ℚ) / (kws.length : ℚ)⟩ : KwRow))
      = some _
  rw [if_neg (fun h0 => hm (List.length_eq_zero.mp h0))]

theorem mem_fullJoin {sr : List SemRow} {kr : List KwRow}
    {p : Option SemRow × Option KwRow} (h : p ∈ fullJoin sr kr) :
    (∃ s ∈ sr, p = (some s,
        kr.find? (fun k => k.caseId == s.caseId && k.chunkId == s.chunkId))) ∨
    (∃ k ∈ kr, p = (none, some k) ∧
      sr.any (fun s => s.caseId == k.caseId && s.chunkId == k.chunkId) = false) := by
  rcases List.mem_append.mp h with h1 | h2
  · rcases List.mem_map.mp h1 with ⟨s, hs, heq⟩
    exact Or.inl ⟨s, hs, heq.symm⟩
  · rcases List.mem_map.mp h2 with ⟨k, hk, heq⟩
    rcases List.mem_filter.mp hk with ⟨hkm, hcond⟩
    refine Or.inr ⟨k, hkm, heq.symm, ?_⟩
    simpa using hcond

theorem mem_hybridRows {dist : Vec → Vec → ℚ} {db : DB} {q : Vec}
    {kws : List String} {lim : ℕ} {w : ℚ} {r : HSResult}
    (h : r ∈ hybridRows dist db q kws lim w) :
    r.finalScore = r.semanticScore * w + r.keywordScore * (1 - w) ∧
    (∃ tc ∈ db.chunks, tc.id = r.chunkId ∧ tc.text = r.chunkText) ∧
    ∃ p ∈ fullJoin (semanticResults dist db q (lim * 2))
        (keywordResults db kws (lim * 2)),
      coalesced p = (r.caseId, r.chunkId, r.semanticScore, r.keywordScore) := by
  have h' := List.mem_dedup.mp h
  rcases List.mem_filterMap.mp h' with ⟨p, hp, heq⟩
  cases hfc : db.cases.find? (fun c => c.id == (coalesced p).1) with
  | none => rw [hfc] at heq; cases heq
  | some c =>
    cases hft : db.chunks.find? (fun tc => tc.id == (coalesced p).2.1) with
    | none => rw [hfc, hft] at heq; cases heq
    | some tc =>
      rw [hfc, hft] at heq
      cases heq
      refine ⟨rfl, ⟨tc, List.mem_of_find?_eq_some hft, ?_, rfl⟩, p, hp, rfl⟩
      have := List.find?_some hft
      simpa using this

/-! Concrete instances used by witnesses and counterexamples. -/

/-- A distance function that makes every pair of vectors coincide. -/
def distZero : Vec → Vec → ℚ := fun _ _ => 0

/-- Two embedded chunks stored with the higher chunk id first. -/
def dbTie : DB :=
  { cases := [⟨1, "0001"⟩],
    documents := [⟨1, 1⟩],
    chunks := [⟨2, 1, "t2"⟩, ⟨1, 1, "t1"⟩],
    embeddings := [⟨1, 2, [0], "all-MiniLM-L6-v2"⟩, ⟨1, 1, [0], "all-MiniLM-L6-v2"⟩] }

/-- C3: for every query vector, limit and threshold, search_similar_embeddings
returns at most limit rows, every returned row has
similarity = 1 - cosine_distance to the query of at least the threshold and
stems from a stored embedding, and rows are ordered by descending
similarity. -/
theorem search_similar_correct (dist : Vec → Vec → ℚ) (db : DB) (q : Vec)
    (lim : ℕ) (thr : ℚ) :
    (searchSimilarEmbeddings dist db q lim thr).length ≤ lim ∧
    (∀ r ∈ searchSimilarEmbeddings dist db q lim thr,
      thr ≤ r.similarity ∧
      ∃ ev ∈ db.embeddings, r.caseId = ev.caseId ∧ r.chunkId = ev.chunkId ∧
        r.similarity = 1 - dist ev.embedding q) ∧
    (searchSimilarEmbeddings dist db q lim thr).Sorted
      (fun a b => b.similarity ≤ a.similarity) := by
  refine ⟨take_length_le _ _, ?_, take_sortByScore_sorted _ _ _⟩
  intro r hr
  have hr' : r ∈ (simJoinRows dist db q).filter
      (fun r => decide (thr ≤ r.similarity)) :=
    mem_of_mem_take_sortByScore hr
  rcases List.mem_filter.mp hr' with ⟨hmem, hcond⟩
  exact ⟨by simpa using hcond, mem_simJoinRows hmem⟩

/-- C4 amended: in the output of search_similar_embeddings a row never
precedes a row of larger similarity (the ORDER BY sorts by the distance
expression alone), and rows of equal similarity keep the relative order of
the underlying joined table rows; no chunk-identity tie-break exists, so the
order is a function of the stored row order, not of the row set. -/
theorem search_similar_order_amended (dist : Vec → Vec → ℚ) (db : DB) (q : Vec)
    (lim : ℕ) (thr : ℚ) :
    (searchSimilarEmbeddings dist db q lim thr).Sorted
      (fun a b => b.similarity ≤ a.similarity) ∧
    (∀ a b : SimResult,
      [a, b].Sublist ((simJoinRows dist db q).filter
        (fun r => decide (thr ≤ r.similarity))) →
      a.similarity = b.similarity →
      [a, b].Sublist (sortByScore (fun r => r.similarity)
        ((simJoinRows dist db q).filter
          (fun r => decide (thr ≤ r.similarity))))) := by
  refine ⟨take_sortByScore_sorted _ _ _, ?_⟩
  intro a b hsub heq
  exact List.pair_sublist_insertionSort (le_of_eq heq.symm) hsub

/-- C4 witness: the amended ordering theorem applied to the two-row tie
database. -/
theorem search_similar_order_amended_witness :
    [(⟨1, 2, 1, "0001", "t2"⟩ : SimResult), ⟨1, 1, 1, "0001", "t1"⟩].Sublist
      (sortByScore (fun r => r.similarity)
        ((simJoinRows distZero dbTie [0]).filter
          (fun r => decide ((0 : ℚ) ≤ r.similarity)))) :=
  (search_similar_order_amended distZero dbTie [0] 10 0).2
    ⟨1, 2, 1, "0001", "t2"⟩ ⟨1, 1, 1, "0001", "t1"⟩
    (by with_unfolding_all decide) (by with_unfolding_all decide)

/-- C3 witness: the search contract applied to the first returned row of the
tie database. -/
theorem search_similar_correct_witness :
    (0 : ℚ) ≤ (⟨1, 2, 1, "0001", "t2"⟩ : SimResult).similarity ∧
    ∃ ev ∈ dbTie.embeddings,
      (⟨1, 2, 1, "0001", "t2"⟩ : SimResult).caseId = ev.caseId ∧
      (⟨1, 2, 1, "0001", "t2"⟩ : SimResult).chunkId = ev.chunkId ∧
      (⟨1, 2, 1, "0001", "t2"⟩ : SimResult).similarity =
        1 - distZero ev.embedding [0] :=
  (search_similar_correct distZero dbTie [0] 10 0).2.1
    ⟨1, 2, 1, "0001", "t2"⟩ (by with_unfolding_all decide)

/-- C4 counterexample: on dbTie both returned rows have similarity 1, yet the
output lists chunk 2 before chunk 1: equal-similarity candidates are not
ordered by chunk identity, and the claimed equivalence between order and
similarity comparison fails on ties. -/
theorem search_similar_tiebreak_cex :
    ((searchSimilarEmbeddings distZero dbTie [0] 10 0).map
      (fun r => r.chunkId) = [2, 1]) ∧
    (∀ r ∈ searchSimilarEmbeddings distZero dbTie [0] 10 0,
      r.similarity = 1) := by
  with_unfolding_all decide

/-! The empty keyword matches every text. -/

theorem nil_mem_tailsOf (s : List Char) : [] ∈ tailsOf s := by
  induction s with
  | nil => simp [tailsOf]
  | cons c t ih =>
    rw [tailsOf]
    exact List.mem_cons_of_mem _ ih

theorem likeMatch_percent (ps s : List Char) (h : likeMatch ps [] = true) :
    likeMatch ('%' :: ps) s = true := by
  have heq : likeMatch ('%' :: ps) s = (tailsOf s).any (fun t => likeMatch ps t) := by
    conv_lhs => rw [likeMatch.eq_def]
    simp
  rw [heq]
  exact List.any_eq_true.mpr ⟨[], nil_mem_tailsOf s, h⟩

theorem likeContains_empty (text : String) : likeContains text "" = true := by
  have hpat : '%' :: (lowerChars "" ++ ['%']) = ['%', '%'] := rfl
  rw [likeContains, hpat]
  exact likeMatch_percent ['%'] _ (likeMatch_percent [] [] rfl)

/-- One matching chunk under one document. -/
def dbLex : DB :=
  { cases := [⟨1, "0001"⟩],
    documents := [⟨1, 1⟩],
    chunks := [⟨1, 1, "abc"⟩],
    embeddings := [] }

/-- Three chunks matching the keyword equally, in ascending storage order. -/
def dbLexA : DB :=
  { cases := [⟨1, "0001"⟩],
    documents := [⟨1, 1⟩],
    chunks := [⟨1, 1, "abc x"⟩, ⟨2, 1, "abc y"⟩, ⟨3, 1, "abc z"⟩],
    embeddings := [] }

/-- The same chunks as dbLexA in descending storage order. -/
def dbLexB : DB :=
  { dbLexA with
    chunks := [⟨3, 1, "abc z"⟩, ⟨2, 1, "abc y"⟩, ⟨1, 1, "abc x"⟩] }

/-- C5 amended: the keyword query returns at most its limit of rows, ordered
descending by keyword_score, every row stems from a chunk joined to its
document whose text matches at least one keyword with score
matched_distinct_count / total_keyword_count, and when the limit does not
truncate, every matching chunk is returned; equal scores keep chunk storage
order, so tie handling is a function of the stored row order, not a
chunk-identity tie-break. -/
theorem lexical_index_correct (db : DB) (kws : List String) (n : ℕ) :
    (keywordResults db kws n).length ≤ n ∧
    (keywordResults db kws n).Sorted
      (fun a b => b.keywordScore ≤ a.keywordScore) ∧
    (∀ k ∈ keywordResults db kws n,
      ∃ tc ∈ db.chunks, ∃ d ∈ db.documents, d.id = tc.documentId ∧
        k.caseId = d.caseId ∧ k.chunkId = tc.id ∧
        matchedKeywords kws tc.text ≠ [] ∧
        k.keywordScore =
          ((matchedKeywords kws tc.text).length : ℚ) / (kws.length : ℚ)) ∧
    ((keywordRows db kws).length ≤ n →
      ∀ tc ∈ db.chunks, (∃ d ∈ db.documents, d.id = tc.documentId) →
        matchedKeywords kws tc.text ≠ [] →
        ∃ k ∈ keywordResults db kws n, k.chunkId = tc.id) := by
  refine ⟨take_length_le _ _, take_sortByScore_sorted _ _ _, ?_, ?_⟩
  · intro k hk
    exact mem_keywordRows (mem_of_mem_take_sortByScore hk)
  · intro hn tc htc hd hm
    rcases keywordRows_complete htc hd hm with ⟨k, hk, hkid⟩
    exact ⟨k, take_sortByScore_all hn hk, hkid⟩

/-- C5 witness: the completeness part applied to a one-chunk database. -/
theorem lexical_index_correct_witness :
    ∃ k ∈ keywordResults dbLex ["abc"] 3, k.chunkId = 1 :=
  (lexical_index_correct dbLex ["abc"] 3).2.2.2 (by with_unfolding_all decide)
    ⟨1, 1, "abc"⟩ (by with_unfolding_all decide) (by with_unfolding_all decide)
    (by with_unfolding_all decide)

/-- C5 counterexample: two databases holding the same three equally scoring
chunks in different storage orders return keyword pools with different
members, so ties are not broken deterministically as a function of the
indexed set. -/
theorem lexical_tiebreak_cex :
    dbLexA.chunks.Perm dbLexB.chunks ∧
    (keywordResults dbLexA ["abc"] 2).map (fun k => k.chunkId) = [1, 2] ∧
    (keywordResults dbLexB ["abc"] 2).map (fun k => k.chunkId) = [3, 2] := by
  with_unfolding_all decide

/-- C10 amended: an empty keyword string in the list matches every chunk
text, every returned keyword pool row has score at least
1 / total_keyword_count, and every chunk owned by a document enters the pool
provided the pool limit does not truncate the grouped rows; a chunk beyond
the LIMIT of limit_count * 2 rows stays out of the pool despite matching. -/
theorem empty_keyword_scores (db : DB) (kws : List String) (n : ℕ)
    (hkw : "" ∈ kws) (hn : (keywordRows db kws).length ≤ n) :
    (∀ tc ∈ db.chunks, likeContains tc.text "" = true) ∧
    (∀ k ∈ keywordResults db kws n,
      1 / (kws.length : ℚ) ≤ k.keywordScore) ∧
    (∀ tc ∈ db.chunks, (∃ d ∈ db.documents, d.id = tc.documentId) →
      ∃ k ∈ keywordResults db kws n, k.chunkId = tc.id) := by
  have hlen : (0 : ℚ) < (kws.length : ℚ) := by
    have : 0 < kws.length := List.length_pos.mpr (List.ne_nil_of_mem hkw)
    exact_mod_cast this
  refine ⟨fun tc _ => likeContains_empty tc.text, ?_, ?_⟩
  · intro k hk
    rcases mem_keywordRows (mem_of_mem_take_sortByScore hk) with
      ⟨tc, _, d, _, _, _, _, hm, hscore⟩
    rw [hscore]
    have h1 : (1 : ℚ) ≤ ((matchedKeywords kws tc.text).length : ℚ) := by
      have : 0 < (matchedKeywords kws tc.text).length :=
        List.length_pos.mpr hm
      exact_mod_cast this
    exact (div_le_div_iff_of_pos_right hlen).mpr h1
  · intro tc htc hd
    have hm : matchedKeywords kws tc.text ≠ [] := by
      have : "" ∈ matchedKeywords kws tc.text :=
        List.mem_filter.mpr ⟨List.mem_dedup.mpr hkw, likeContains_empty tc.text⟩
      exact List.ne_nil_of_mem this
    rcases keywordRows_complete htc hd hm with ⟨k, hk, hkid⟩
    exact ⟨k, take_sortByScore_all hn hk, hkid⟩

/-- C10 witness: the completeness part applied to a one-chunk database with
the empty keyword. -/
theorem empty_keyword_scores_witness :
    ∃ k ∈ keywordResults dbLex [""] 3, k.chunkId = 1 :=
  (empty_keyword_scores dbLex [""] 3 (by with_unfolding_all decide)
    (by with_unfolding_all decide)).2.2
    ⟨1, 1, "abc"⟩ (by with_unfolding_all decide) (by with_unfolding_all decide)

/-- C10 counterexample: with the empty keyword every one of the three chunks
matches, yet with limit_count 1 the keyword pool truncates at 1 * 2 = 2 rows
and chunk 3 never enters it, against the claim that every indexed chunk
enters the pool. -/
theorem empty_keyword_pool_cex :
    (∀ tc ∈ dbLexA.chunks, likeContains tc.text "" = true) ∧
    (keywordResults dbLexA [""] (1 * 2)).map (fun k => k.chunkId) = [1, 2] ∧
    (∀ k ∈ keywordResults dbLexA [""] (1 * 2), k.chunkId ≠ 3) := by
  with_unfolding_all decide

/-! Empty-input behaviour helpers. -/

theorem sortByScore_nil {α : Type} (key : α → ℚ) : sortByScore key [] = [] := rfl

theorem keywordRows_nil (db : DB) : keywordRows db [] = [] := by
  apply List.filterMap_eq_nil_iff.mpr
  intro tc htc
  cases hfd : db.documents.find? (fun d => d.id == tc.documentId) with
  | none => rfl
  | some d => rfl

theorem keywordResults_nil (db : DB) (n : ℕ) : keywordResults db [] n = [] := by
  show (sortByScore (fun k => k.keywordScore) (keywordRows db [])).take n = []
  rw [keywordRows_nil, sortByScore_nil]
  exact List.take_nil

/-- The per-row final_score formula holds for every hybrid_search output
row. -/
theorem hybrid_final_formula {dist : Vec → Vec → ℚ} {db : DB} {q : Vec}
    {kws : List String} {lim : ℕ} {w : ℚ} {r : HSResult}
    (h : r ∈ hybridSearch dist db q kws lim w) :
    r.finalScore = r.semanticScore * w + r.keywordScore * (1 - w) :=
  (mem_hybridRows (mem_of_mem_take_sortByScore h)).1

/-- C9: queries degrade to empty results instead of failing: a keyword query
with zero keywords yields the empty list, search over an empty embedding
index yields the empty list, a search whose candidates all fall below the
similarity threshold yields the empty list, and hybrid_search with an empty
keyword list and weight one half gives every candidate keyword_score 0 and
final_score one half of its semantic_score. -/
theorem empty_query_graceful (dist : Vec → Vec → ℚ) (db : DB) (q : Vec)
    (lim n : ℕ) (thr : ℚ)
    (hthr : ∀ ev ∈ db.embeddings, 1 - dist ev.embedding q < thr) :
    keywordResults db [] n = [] ∧
    searchSimilarEmbeddings dist
      { cases := db.cases, documents := db.documents, chunks := db.chunks,
        embeddings := [] } q lim thr = [] ∧
    searchSimilarEmbeddings dist db q lim thr = [] ∧
    (∀ r ∈ hybridSearch dist db q [] lim (1 / 2),
      r.keywordScore = 0 ∧ r.finalScore = (1 / 2) * r.semanticScore) := by
  refine ⟨keywordResults_nil db n, ?_, ?_, ?_⟩
  · show (sortByScore (fun r => r.similarity)
      ((simJoinRows dist
        { cases := db.cases, documents := db.documents, chunks := db.chunks,
          embeddings := [] } q).filter
        (fun r => decide (thr ≤ r.similarity)))).take lim = []
    have hjoin : simJoinRows dist
        { cases := db.cases, documents := db.documents, chunks := db.chunks,
          embeddings := [] } q = [] := rfl
    rw [hjoin, List.filter_nil, sortByScore_nil]
    exact List.take_nil
  · show (sortByScore (fun r => r.similarity)
      ((simJoinRows dist db q).filter
        (fun r => decide (thr ≤ r.similarity)))).take lim = []
    have hfilter : (simJoinRows dist db q).filter
        (fun r => decide (thr ≤ r.similarity)) = [] := by
      apply List.filter_eq_nil_iff.mpr
      intro r hr
      rcases mem_simJoinRows hr with ⟨ev, hev, _, _, hsim⟩
      simp only [decide_eq_true_eq]
      rw [hsim]
      exact not_le.mpr (hthr ev hev)
    rw [hfilter, sortByScore_nil]
    exact List.take_nil
  · intro r hr
    rcases mem_hybridRows (mem_of_mem_take_sortByScore hr) with
      ⟨hfinal, _, p, hp, hco⟩
    have hkr : keywordResults db [] (lim * 2) = [] := keywordResults_nil db _
    rw [hkr] at hp
    rcases mem_fullJoin hp with ⟨s, _, hpe⟩ | ⟨k, hk, _⟩
    · have hks : r.keywordScore = 0 := by
        rw [hpe] at hco
        have : coalesced (some s, List.find? (fun k =>
            k.caseId == s.caseId && k.chunkId == s.chunkId) []) =
            (s.caseId, s.chunkId, s.semanticScore, 0) := rfl
        rw [this] at hco
        exact (Prod.mk.injEq _ _ _ _).mp ((Prod.mk.injEq _ _ _ _).mp
          ((Prod.mk.injEq _ _ _ _).mp hco).2).2 |>.2.symm
      refine ⟨hks, ?_⟩
      rw [hfinal, hks]
      ring
    · cases hk

/-- C9 witness: the graceful theorem applied to a database whose embeddings
all fall below the threshold yields the empty result. -/
theorem empty_query_graceful_witness :
    searchSimilarEmbeddings distZero dbTie [0] 4 2 = [] :=
  (empty_query_graceful distZero dbTie [0] 4 5 2
    (by with_unfolding_all decide)).2.2.1

/-- C2 amended: with semantic_weight 1 every hybrid_search row has
final_score equal to its semantic_score and the output is ordered by
descending semantic score, the ranking criterion of search_similar; with
semantic_weight 0 it equals the keyword_score and the output is ordered by
descending keyword score, the pure lexical criterion; the returned candidate
sets can still differ from the pure queries. -/
theorem hybrid_weight_degenerate (dist : Vec → Vec → ℚ) (db : DB) (q : Vec)
    (kws : List String) (lim : ℕ) :
    (∀ r ∈ hybridSearch dist db q kws lim 1, r.finalScore = r.semanticScore) ∧
    (hybridSearch dist db q kws lim 1).Sorted
      (fun a b => b.semanticScore ≤ a.semanticScore) ∧
    (∀ r ∈ hybridSearch dist db q kws lim 0, r.finalScore = r.keywordScore) ∧
    (hybridSearch dist db q kws lim 0).Sorted
      (fun a b => b.keywordScore ≤ a.keywordScore) := by
  have h1 : ∀ r ∈ hybridSearch dist db q kws lim 1,
      r.finalScore = r.semanticScore := by
    intro r hr
    rw [hybrid_final_formula hr]
    ring
  have h0 : ∀ r ∈ hybridSearch dist db q kws lim 0,
      r.finalScore = r.keywordScore := by
    intro r hr
    rw [hybrid_final_formula hr]
    ring
  refine ⟨h1, ?_, h0, ?_⟩
  · exact List.Pairwise.imp_of_mem
      (fun ha hb hrel => by rw [← h1 _ ha, ← h1 _ hb]; exact hrel)
      (take_sortByScore_sorted (fun r : HSResult => r.finalScore)
        (hybridRows dist db q kws lim 1) lim)
  · exact List.Pairwise.imp_of_mem
      (fun ha hb hrel => by rw [← h0 _ ha, ← h0 _ hb]; exact hrel)
      (take_sortByScore_sorted (fun r : HSResult => r.finalScore)
        (hybridRows dist db q kws lim 0) lim)

/-- A database with one keyword-matching chunk and no embeddings. -/
def dbKwOnly : DB :=
  { cases := [⟨1, "0001"⟩],
    documents := [⟨1, 1⟩],
    chunks := [⟨1, 1, "abc"⟩],
    embeddings := [] }

/-- C2 counterexample: with semantic_weight 1 hybrid_search still returns
the keyword-only candidate, final_score 0, while search_similar_embeddings
at its default threshold 0.7 returns nothing on the same query vector and
limit, so the two rankings are not the same. -/
theorem hybrid_weight_law_cex :
    (hybridSearch distZero dbKwOnly [0] ["abc"] 1 1).map
      (fun r => r.chunkId) = [1] ∧
    searchSimilarEmbeddings distZero dbKwOnly [0] 1 (7 / 10) = [] := by
  with_unfolding_all decide

/-- C2 witness: the degeneration theorem applied to the keyword-only
candidate returned at weight 1. -/
theorem hybrid_weight_degenerate_witness :
    (⟨1, "0001", 1, "abc", 0, 1, 0⟩ : HSResult).finalScore =
      (⟨1, "0001", 1, "abc", 0, 1, 0⟩ : HSResult).semanticScore :=
  (hybrid_weight_degenerate distZero dbKwOnly [0] ["abc"] 1).1
    ⟨1, "0001", 1, "abc", 0, 1, 0⟩ (by with_unfolding_all decide)

/-! Provenance of returned chunk identifiers. -/

theorem emb_of_searchSimilar {dist : Vec → Vec → ℚ} {db : DB} {q : Vec}
    {lim : ℕ} {thr : ℚ} {r : SimResult}
    (h : r ∈ searchSimilarEmbeddings dist db q lim thr) :
    ∃ ev ∈ db.embeddings, r.chunkId = ev.chunkId := by
  rcases List.mem_filter.mp (mem_of_mem_take_sortByScore h) with ⟨hmem, _⟩
  rcases mem_simJoinRows hmem with ⟨ev, hev, _, hchid, _⟩
  exact ⟨ev, hev, hchid⟩

theorem chunk_of_keywordResults {db : DB} {kws : List String} {n : ℕ}
    {k : KwRow} (h : k ∈ keywordResults db kws n) :
    ∃ tc ∈ db.chunks, k.chunkId = tc.id := by
  rcases mem_keywordRows (mem_of_mem_take_sortByScore h) with
    ⟨tc, htc, _, _, _, _, hkid, _, _⟩
  exact ⟨tc, htc, hkid⟩

theorem chunk_of_hybridSearch {dist : Vec → Vec → ℚ} {db : DB} {q : Vec}
    {kws : List String} {lim : ℕ} {w : ℚ} {r : HSResult}
    (h : r ∈ hybridSearch dist db q kws lim w) :
    ∃ tc ∈ db.chunks, tc.id = r.chunkId := by
  rcases (mem_hybridRows (mem_of_mem_take_sortByScore h)).2.1 with
    ⟨tc, htc, hid, _⟩
  exact ⟨tc, htc, hid⟩

/-- C6: chunk deletion cascades synchronously: after deleteChunk no stored
embedding references the deleted chunk id and neither search path can return
it; after deleteDocument the same holds for the id of every chunk the
document owned, given the chunk primary key. -/
theorem delete_cascade_clean (db : DB) (cid did : ℕ) (dist : Vec → Vec → ℚ)
    (q : Vec) (lim n : ℕ) (thr w : ℚ) (kws : List String)
    (hch : db.chunks.Pairwise (fun a b => a.id ≠ b.id)) :
    (∀ e ∈ (deleteChunk db cid).embeddings, e.chunkId ≠ cid) ∧
    (∀ r ∈ searchSimilarEmbeddings dist (deleteChunk db cid) q lim thr,
      r.chunkId ≠ cid) ∧
    (∀ k ∈ keywordResults (deleteChunk db cid) kws n, k.chunkId ≠ cid) ∧
    (∀ r ∈ hybridSearch dist (deleteChunk db cid) q kws lim w,
      r.chunkId ≠ cid) ∧
    (∀ tc0 ∈ db.chunks, tc0.documentId = did →
      (∀ e ∈ (deleteDocument db did).embeddings, e.chunkId ≠ tc0.id) ∧
      (∀ r ∈ searchSimilarEmbeddings dist (deleteDocument db did) q lim thr,
        r.chunkId ≠ tc0.id) ∧
      (∀ k ∈ keywordResults (deleteDocument db did) kws n,
        k.chunkId ≠ tc0.id) ∧
      (∀ r ∈ hybridSearch dist (deleteDocument db did) q kws lim w,
        r.chunkId ≠ tc0.id)) := by
  have hembC : ∀ e ∈ (deleteChunk db cid).embeddings, e.chunkId ≠ cid := by
    intro e he
    have hcond := (List.mem_filter.mp he).2
    simpa using hcond
  have hchkC : ∀ tc ∈ (deleteChunk db cid).chunks, tc.id ≠ cid := by
    intro tc htc
    have hcond := (List.mem_filter.mp htc).2
    simpa using hcond
  refine ⟨hembC, ?_, ?_, ?_, ?_⟩
  · intro r hr
    rcases emb_of_searchSimilar hr with ⟨ev, hev, hchid⟩
    rw [hchid]
    exact hembC ev hev
  · intro k hk
    rcases chunk_of_keywordResults hk with ⟨tc, htc, hkid⟩
    rw [hkid]
    exact hchkC tc htc
  · intro r hr
    rcases chunk_of_hybridSearch hr with ⟨tc, htc, hid⟩
    rw [← hid]
    exact hchkC tc htc
  · intro tc0 htc0 hdoc
    have htc0dead : tc0 ∈ db.chunks.filter (fun tc => tc.documentId == did) :=
      List.mem_filter.mpr ⟨htc0, by simp [hdoc]⟩
    have hembD : ∀ e ∈ (deleteDocument db did).embeddings,
        e.chunkId ≠ tc0.id := by
      intro e he
      have hcond := (List.mem_filter.mp he).2
      have hany : (db.chunks.filter (fun tc => tc.documentId == did)).any
          (fun tc => tc.id == e.chunkId) = false := by
        simpa using hcond
      have := List.any_eq_false.mp hany tc0 htc0dead
      simp at this
      exact fun hc => this (hc ▸ rfl)
    have hchkD : ∀ tc ∈ (deleteDocument db did).chunks, tc.id ≠ tc0.id := by
      intro tc htc heq
      have hmem : tc ∈ db.chunks := List.mem_of_mem_filter htc
      have hcond := (List.mem_filter.mp htc).2
      have hne : tc.documentId ≠ did := by simpa using hcond
      have : tc = tc0 := mem_unique_of_pairwise_ne hch hmem htc0 heq
      exact hne (this ▸ hdoc)
    refine ⟨hembD, ?_, ?_, ?_⟩
    · intro r hr
      rcases emb_of_searchSimilar hr with ⟨ev, hev, hchid⟩
      rw [hchid]
      exact hembD ev hev
    · intro k hk
      rcases chunk_of_keywordResults hk with ⟨tc, htc, hkid⟩
      rw [hkid]
      exact hchkD tc htc
    · intro r hr
      rcases chunk_of_hybridSearch hr with ⟨tc, htc, hid⟩
      rw [← hid]
      exact hchkD tc htc

/-- C6 witness: the embedding-cleanup part of the cascade theorem on the
two-chunk database, deleting chunk 1 and looking at the surviving row. -/
theorem delete_cascade_clean_witness :
    (⟨1, 2, [0], "all-MiniLM-L6-v2"⟩ : EmbeddingRow).chunkId ≠ 1 :=
  (delete_cascade_clean dbTie 1 1 distZero [0] 5 5 0 0 ["t"]
    (by with_unfolding_all decide)).1
    ⟨1, 2, [0], "all-MiniLM-L6-v2"⟩ (by with_unfolding_all decide)

/-- C7: Upsert is idempotent: a successful call leaves exactly one embedding
for the chunk id, a second identical call succeeds and leaves the state
unchanged, and the chunk-uniqueness constraint is preserved. -/
theorem upsert_idempotent (db : DB) (caseId chunkId : ℕ) (v : Vec) (m : String)
    (hv : v.length = 384)
    (hu : db.embeddings.Pairwise (fun a b => a.chunkId ≠ b.chunkId)) :
    ∃ db', upsert db caseId chunkId v m = Except.ok db' ∧
      upsert db' caseId chunkId v m = Except.ok db' ∧
      (db'.embeddings.filter (fun e => e.chunkId == chunkId)).length = 1 ∧
      db'.embeddings.Pairwise (fun a b => a.chunkId ≠ b.chunkId) := by
  refine ⟨{ db with embeddings :=
    db.embeddings.filter (fun e => e.chunkId != chunkId) ++
      [⟨caseId, chunkId, v, m⟩] }, ?_, ?_, ?_, ?_⟩
  · show (if v.length = 384 then _ else _) = _
    rw [if_pos hv]
  · show (if v.length = 384 then Except.ok _ else _) = Except.ok _
    rw [if_pos hv]
    have hf : ((db.embeddings.filter (fun e => e.chunkId != chunkId) ++
        [(⟨caseId, chunkId, v, m⟩ : EmbeddingRow)]).filter
          (fun e => e.chunkId != chunkId)) =
        db.embeddings.filter (fun e => e.chunkId != chunkId) := by
      rw [List.filter_append, List.filter_filter]
      simp
    rw [hf]
  · rw [List.filter_append]
    have h1 : ((db.embeddings.filter (fun e => e.chunkId != chunkId)).filter
        (fun e => e.chunkId == chunkId)) = [] := by
      apply List.filter_eq_nil_iff.mpr
      intro e he
      have hne := (List.mem_filter.mp he).2
      simp at hne ⊢
      exact hne
    rw [h1]
    simp
  · rw [List.pairwise_append]
    refine ⟨List.Pairwise.sublist (List.filter_sublist _) hu, by simp, ?_⟩
    intro a ha b hb
    have hane : a.chunkId ≠ chunkId := by
      have := (List.mem_filter.mp ha).2
      simpa using this
    rcases List.mem_singleton.mp hb with rfl
    exact hane

/-- C7 witness: upserting a 384-length vector twice into the empty store. -/
theorem upsert_idempotent_witness :
    ∃ db', upsert dbKwOnly 1 1 (List.replicate 384 0) "all-MiniLM-L6-v2"
        = Except.ok db' ∧
      upsert db' 1 1 (List.replicate 384 0) "all-MiniLM-L6-v2"
        = Except.ok db' ∧
      (db'.embeddings.filter (fun e => e.chunkId == 1)).length = 1 ∧
      db'.embeddings.Pairwise (fun a b => a.chunkId ≠ b.chunkId) :=
  upsert_idempotent dbKwOnly 1 1 (List.replicate 384 0) "all-MiniLM-L6-v2"
    (List.length_replicate 384 0) List.Pairwise.nil

/-- The schema declares a dimension only for the default model, and it is
384. -/
theorem declaredDim_384 {s : String} {d : ℕ} (h : declaredDim s = some d) :
    d = 384 := by
  unfold declaredDim at h
  split at h
  · injection h with h'
    exact h'.symm
  · cases h

/-- C8: an Upsert whose vector length is not the configured dimension 384
fails with DimensionMismatch and stores nothing, and every successful Upsert
preserves the invariant that each stored embedding has length 384, hence the
length declared for its model name whenever one is declared. -/
theorem upsert_dimension_safe (db : DB) (caseId chunkId : ℕ) (v : Vec)
    (m : String) (hdb : ∀ e ∈ db.embeddings, e.embedding.length = 384) :
    (v.length ≠ 384 →
      upsert db caseId chunkId v m = Except.error StoreError.DimensionMismatch) ∧
    (∀ db', upsert db caseId chunkId v m = Except.ok db' →
      (∀ e ∈ db'.embeddings, e.embedding.length = 384) ∧
      (∀ e ∈ db'.embeddings, ∀ d, declaredDim e.modelName = some d →
        e.embedding.length = d)) := by
  constructor
  · intro hv
    show (if v.length = 384 then _ else _) = _
    rw [if_neg hv]
  · intro db' hok
    by_cases hv : v.length = 384
    · unfold upsert at hok
      rw [if_pos hv] at hok
      have hdb' : ({ db with embeddings :=
          db.embeddings.filter (fun e => e.chunkId != chunkId) ++
            [⟨caseId, chunkId, v, m⟩] } : DB) = db' := Except.ok.inj hok
      have hlen : ∀ e ∈ db'.embeddings, e.embedding.length = 384 := by
        intro e he
        rw [← hdb'] at he
        rcases List.mem_append.mp he with h1 | h2
        · exact hdb e (List.mem_of_mem_filter h1)
        · rcases List.mem_singleton.mp h2 with rfl
          exact hv
      exact ⟨hlen, fun e he d hd => by rw [hlen e he, declaredDim_384 hd]⟩
    · unfold upsert at hok
      rw [if_neg hv] at hok
      cases hok

/-- C8 witness: a one-component vector is rejected by the empty store. -/
theorem upsert_dimension_safe_witness :
    upsert dbKwOnly 1 1 [0] "all-MiniLM-L6-v2"
      = Except.error StoreError.DimensionMismatch :=
  (upsert_dimension_safe dbKwOnly 1 1 [0] "all-MiniLM-L6-v2"
    (by with_unfolding_all decide)).1 (by decide)

/-! Key uniqueness of the two candidate pools, from the table constraints. -/

theorem semanticResults_key_unique (dist : Vec → Vec → ℚ) {db : DB} (q : Vec)
    (n : ℕ) (hu : db.embeddings.Pairwise (fun a b => a.chunkId ≠ b.chunkId)) :
    (semanticResults dist db q n).Pairwise (fun a b => a.chunkId ≠ b.chunkId) := by
  have hmap : (db.embeddings.map (fun ev =>
      (⟨ev.caseId, ev.chunkId, 1 - dist ev.embedding q⟩ : SemRow))).Pairwise
      (fun a b => a.chunkId ≠ b.chunkId) :=
    List.pairwise_map.mpr (hu.imp (fun h => h))
  have hsort := ((sortByScore_perm (fun s : SemRow => s.semanticScore)
      _).pairwise_iff (fun h => Ne.symm h)).mpr hmap
  exact List.Pairwise.sublist (List.take_sublist n _) hsort

theorem keywordRows_key_unique {db : DB} {kws : List String}
    (hch : db.chunks.Pairwise (fun a b => a.id ≠ b.id)) :
    (keywordRows db kws).Pairwise (fun a b => a.chunkId ≠ b.chunkId) := by
  apply List.Pairwise.filterMap _ _ hch
  intro tc tc' hne k hk k' hk'
  have hid : k.chunkId = tc.id := by
    cases hfd : db.documents.find? (fun d => d.id == tc.documentId) with
    | none => rw [hfd] at hk; cases hk
    | some d =>
      rw [hfd] at hk
      have hk2 : (if (matchedKeywords kws tc.text).length = 0 then none
          else some (⟨d.caseId, tc.id,
            ((matchedKeywords kws tc.text).length : ℚ) / (kws.length : ℚ)⟩ :
            KwRow)) = some k := hk
      by_cases hm : (matchedKeywords kws tc.text).length = 0
      · rw [if_pos hm] at hk2; cases hk2
      · rw [if_neg hm] at hk2; cases hk2; rfl
  have hid' : k'.chunkId = tc'.id := by
    cases hfd : db.documents.find? (fun d => d.id == tc'.documentId) with
    | none => rw [hfd] at hk'; cases hk'
    | some d =>
      rw [hfd] at hk'
      have hk2 : (if (matchedKeywords kws tc'.text).length = 0 then none
          else some (⟨d.caseId, tc'.id,
            ((matchedKeywords kws tc'.text).length : ℚ) / (kws.length : ℚ)⟩ :
            KwRow)) = some k' := hk'
      by_cases hm : (matchedKeywords kws tc'.text).length = 0
      · rw [if_pos hm] at hk2; cases hk2
      · rw [if_neg hm] at hk2; cases hk2; rfl
  rw [hid, hid']
  exact hne

theorem keywordResults_key_unique {db : DB} (kws : List String) (n : ℕ)
    (hch : db.chunks.Pairwise (fun a b => a.id ≠ b.id)) :
    (keywordResults db kws n).Pairwise (fun a b => a.chunkId ≠ b.chunkId) := by
  have hsort := ((sortByScore_perm (fun k : KwRow => k.keywordScore)
      (keywordRows db kws)).pairwise_iff (fun h => Ne.symm h)).mpr
      (keywordRows_key_unique hch)
  exact List.Pairwise.sublist (List.take_sublist n _) hsort

/-! The pool score of a key present in, or absent from, a pool. -/

theorem poolSemScore_of_mem {sr : List SemRow}
    (huniq : sr.Pairwise (fun a b => a.chunkId ≠ b.chunkId))
    {s : SemRow} (hs : s ∈ sr) :
    poolSemScore sr s.caseId s.chunkId = s.semanticScore := by
  unfold poolSemScore
  rw [find?_eq_some_of_mem hs (by simp)
    (huniq.imp (fun hne hpx hpy => by
      simp only [Bool.and_eq_true, beq_iff_eq] at hpx hpy
      exact absurd (hpx.2.trans hpy.2.symm) hne))]

theorem poolSemScore_of_none {sr : List SemRow} {cid chid : ℕ}
    (h : sr.find? (fun s => s.caseId == cid && s.chunkId == chid) = none) :
    poolSemScore sr cid chid = 0 := by
  unfold poolSemScore
  rw [h]

theorem poolKwScore_of_mem {kr : List KwRow}
    (huniq : kr.Pairwise (fun a b => a.chunkId ≠ b.chunkId))
    {k : KwRow} (hk : k ∈ kr) :
    poolKwScore kr k.caseId k.chunkId = k.keywordScore := by
  unfold poolKwScore
  rw [find?_eq_some_of_mem hk (by simp)
    (huniq.imp (fun hne hpx hpy => by
      simp only [Bool.and_eq_true, beq_iff_eq] at hpx hpy
      exact absurd (hpx.2.trans hpy.2.symm) hne))]

theorem poolKwScore_of_some {kr : List KwRow} {cid chid : ℕ} {k : KwRow}
    (h : kr.find? (fun k => k.caseId == cid && k.chunkId == chid) = some k) :
    poolKwScore kr cid chid = k.keywordScore := by
  unfold poolKwScore
  rw [h]

theorem poolKwScore_of_none {kr : List KwRow} {cid chid : ℕ}
    (h : kr.find? (fun k => k.caseId == cid && k.chunkId == chid) = none) :
    poolKwScore kr cid chid = 0 := by
  unfold poolKwScore
  rw [h]

/-! The coalesced columns of a joined pair with a present semantic side. -/

theorem coalesced_some_fst (s : SemRow) (x : Option KwRow) :
    (coalesced (some s, x)).1 = s.caseId := by
  cases x <;> rfl

theorem coalesced_some_snd (s : SemRow) (x : Option KwRow) :
    (coalesced (some s, x)).2.1 = s.chunkId := by
  cases x <;> rfl

/-- Every combined row of hybrid_search carries exactly the pool scores of
its candidate key, 0 for a missing side, its final score is the weighted sum
of them, and its key comes from one of the two pools. -/
theorem hybridRows_scores {dist : Vec → Vec → ℚ} {db : DB} {q : Vec}
    {kws : List String} {lim : ℕ} {w : ℚ} {r : HSResult}
    (hemb : db.embeddings.Pairwise (fun a b => a.chunkId ≠ b.chunkId))
    (hch : db.chunks.Pairwise (fun a b => a.id ≠ b.id))
    (h : r ∈ hybridRows dist db q kws lim w) :
    r.semanticScore =
      poolSemScore (semanticResults dist db q (lim * 2)) r.caseId r.chunkId ∧
    r.keywordScore =
      poolKwScore (keywordResults db kws (lim * 2)) r.caseId r.chunkId ∧
    r.finalScore = r.semanticScore * w + r.keywordScore * (1 - w) ∧
    ((∃ s ∈ semanticResults dist db q (lim * 2),
        s.caseId = r.caseId ∧ s.chunkId = r.chunkId) ∨
     (∃ k ∈ keywordResults db kws (lim * 2),
        k.caseId = r.caseId ∧ k.chunkId = r.chunkId)) := by
  rcases mem_hybridRows h with ⟨hfinal, _, p, hp, hco⟩
  have hsru := semanticResults_key_unique dist q (lim * 2) hemb
  have hkru := keywordResults_key_unique kws (lim * 2) hch
  rcases mem_fullJoin hp with ⟨s, hs, hpe⟩ | ⟨k, hk, hpe, hany⟩
  · subst hpe
    cases hfind : (keywordResults db kws (lim * 2)).find?
        (fun k => k.caseId == s.caseId && k.chunkId == s.chunkId) with
    | some k =>
      rw [hfind] at hco
      have hco' : (s.caseId, s.chunkId, s.semanticScore, k.keywordScore) =
          (r.caseId, r.chunkId, r.semanticScore, r.keywordScore) := hco
      simp only [Prod.mk.injEq] at hco'
      obtain ⟨h1, h2, h3, h4⟩ := hco'
      refine ⟨?_, ?_, hfinal, Or.inl ⟨s, hs, h1, h2⟩⟩
      · rw [← h1, ← h2, ← h3]
        exact (poolSemScore_of_mem hsru hs).symm
      · rw [← h1, ← h2, ← h4]
        exact (poolKwScore_of_some hfind).symm
    | none =>
      rw [hfind] at hco
      have hco' : (s.caseId, s.chunkId, s.semanticScore, (0 : ℚ)) =
          (r.caseId, r.chunkId, r.semanticScore, r.keywordScore) := hco
      simp only [Prod.mk.injEq] at hco'
      obtain ⟨h1, h2, h3, h4⟩ := hco'
      refine ⟨?_, ?_, hfinal, Or.inl ⟨s, hs, h1, h2⟩⟩
      · rw [← h1, ← h2, ← h3]
        exact (poolSemScore_of_mem hsru hs).symm
      · rw [← h1, ← h2, ← h4]
        exact (poolKwScore_of_none hfind).symm
  · subst hpe
    have hco' : (k.caseId, k.chunkId, (0 : ℚ), k.keywordScore) =
        (r.caseId, r.chunkId, r.semanticScore, r.keywordScore) := hco
    simp only [Prod.mk.injEq] at hco'
    obtain ⟨h1, h2, h3, h4⟩ := hco'
    have hsnone : (semanticResults dist db q (lim * 2)).find?
        (fun s => s.caseId == k.caseId && s.chunkId == k.chunkId) = none :=
      List.find?_eq_none.mpr (List.any_eq_false.mp hany)
    refine ⟨?_, ?_, hfinal, Or.inr ⟨k, hk, h1, h2⟩⟩
    · rw [← h1, ← h2, ← h3]
      exact (poolSemScore_of_none hsnone).symm
    · rw [← h1, ← h2, ← h4]
      exact (poolKwScore_of_mem hkru hk).symm

/-- Under referential integrity every key of either pool appears among the
combined rows of hybrid_search. -/
theorem hybridRows_complete {dist : Vec → Vec → ℚ} {db : DB} {q : Vec}
    {kws : List String} {lim : ℕ} {w : ℚ} (hri : RefIntegrity db) :
    (∀ s ∈ semanticResults dist db q (lim * 2),
      ∃ c ∈ hybridRows dist db q kws lim w,
        c.caseId = s.caseId ∧ c.chunkId = s.chunkId) ∧
    (∀ k ∈ keywordResults db kws (lim * 2),
      ∃ c ∈ hybridRows dist db q kws lim w,
        c.caseId = k.caseId ∧ c.chunkId = k.chunkId) := by
  have hsem : ∀ s ∈ semanticResults dist db q (lim * 2),
      ∃ c ∈ hybridRows dist db q kws lim w,
        c.caseId = s.caseId ∧ c.chunkId = s.chunkId := by
    intro s hs
    rcases mem_semanticResults hs with ⟨ev, hev, hcase, hchunk, _⟩
    rcases hri.1 ev hev with ⟨⟨c0, hc0, hc0id⟩, ⟨tc0, htc0, htc0id⟩⟩
    have hp : (some s, (keywordResults db kws (lim * 2)).find?
        (fun k => k.caseId == s.caseId && k.chunkId == s.chunkId)) ∈
        fullJoin (semanticResults dist db q (lim * 2))
          (keywordResults db kws (lim * 2)) :=
      List.mem_append_left _ (List.mem_map.mpr ⟨s, hs, rfl⟩)
    set p : Option SemRow × Option KwRow :=
      (some s, (keywordResults db kws (lim * 2)).find?
        (fun k => k.caseId == s.caseId && k.chunkId == s.chunkId))
    have hc1 : (coalesced p).1 = s.caseId := coalesced_some_fst s _
    have hc2 : (coalesced p).2.1 = s.chunkId := coalesced_some_snd s _
    have hfc : (db.cases.find? (fun c => c.id == (coalesced p).1)).isSome :=
      List.find?_isSome.mpr ⟨c0, hc0, by rw [hc1]; simp [hc0id, hcase]⟩
    have hft : (db.chunks.find? (fun tc => tc.id == (coalesced p).2.1)).isSome :=
      List.find?_isSome.mpr ⟨tc0, htc0, by rw [hc2]; simp [htc0id, hchunk]⟩
    rcases Option.isSome_iff_exists.mp hfc with ⟨c1, hfc1⟩
    rcases Option.isSome_iff_exists.mp hft with ⟨tc1, hft1⟩
    refine ⟨⟨(coalesced p).1, c1.caseNumber, (coalesced p).2.1, tc1.text,
      (coalesced p).2.2.1, (coalesced p).2.2.2,
      (coalesced p).2.2.1 * w + (coalesced p).2.2.2 * (1 - w)⟩, ?_, hc1, hc2⟩
    apply List.mem_dedup.mpr
    apply List.mem_filterMap.mpr
    exact ⟨p, hp, by rw [hfc1, hft1]⟩
  refine ⟨hsem, ?_⟩
  intro k hk
  by_cases hany : (semanticResults dist db q (lim * 2)).any
      (fun s => s.caseId == k.caseId && s.chunkId == k.chunkId) = true
  · rcases List.any_eq_true.mp hany with ⟨s, hs, hpred⟩
    simp only [Bool.and_eq_true, beq_iff_eq] at hpred
    rcases hsem s hs with ⟨c, hc, hcc, hcch⟩
    exact ⟨c, hc, by rw [hcc, hpred.1], by rw [hcch, hpred.2]⟩
  · have hanyf : (semanticResults dist db q (lim * 2)).any
        (fun s => s.caseId == k.caseId && s.chunkId == k.chunkId) = false :=
      Bool.eq_false_iff.mpr hany
    rcases mem_keywordRows (mem_of_mem_take_sortByScore hk) with
      ⟨tc1, htc1, d, hd, hdid, hkcase, hkid, _, _⟩
    rcases hri.2.2 d hd with ⟨c0, hc0, hc0id⟩
    have hp : ((none : Option SemRow), some k) ∈
        fullJoin (semanticResults dist db q (lim * 2))
          (keywordResults db kws (lim * 2)) :=
      List.mem_append_right _
        (List.mem_map.mpr ⟨k, List.mem_filter.mpr ⟨hk, by simp [hanyf]⟩, rfl⟩)
    have hfc : (db.cases.find? (fun c => c.id ==
        (coalesced ((none : Option SemRow), some k)).1)).isSome :=
      List.find?_isSome.mpr ⟨c0, hc0, by
        show (c0.id == k.caseId) = true
        simp [hc0id, hkcase]⟩
    have hft : (db.chunks.find? (fun tc => tc.id ==
        (coalesced ((none : Option SemRow), some k)).2.1)).isSome :=
      List.find?_isSome.mpr ⟨tc1, htc1, by
        show (tc1.id == k.chunkId) = true
        simp [hkid]⟩
    rcases Option.isSome_iff_exists.mp hfc with ⟨c1, hfc1⟩
    rcases Option.isSome_iff_exists.mp hft with ⟨tc2, hft1⟩
    refine ⟨⟨(coalesced ((none : Option SemRow), some k)).1, c1.caseNumber,
      (coalesced ((none : Option SemRow), some k)).2.1, tc2.text,
      (coalesced ((none : Option SemRow), some k)).2.2.1,
      (coalesced ((none : Option SemRow), some k)).2.2.2,
      (coalesced ((none : Option SemRow), some k)).2.2.1 * w +
        (coalesced ((none : Option SemRow), some k)).2.2.2 * (1 - w)⟩,
      ?_, rfl, rfl⟩
    apply List.mem_dedup.mpr
    apply List.mem_filterMap.mpr
    exact ⟨((none : Option SemRow), some k), hp, by rw [hfc1, hft1]⟩

/-- C1: hybrid_search pairs each candidate of the union of the semantic pool
and the keyword pool, both fetched with limit 2 times limit_count, scores it
with final_score equal to semantic_score times the weight plus keyword_score
times one minus the weight with a missing pool score read as 0, annotates it
with both pool scores, and returns the candidates of maximal final_score,
at most limit_count of them, in descending final_score order. -/
theorem hybrid_search_correct (dist : Vec → Vec → ℚ) (db : DB) (q : Vec)
    (kws : List String) (lim : ℕ) (w : ℚ)
    (hu : UniqueIds db) (hri : RefIntegrity db) :
    (hybridSearch dist db q kws lim w).length ≤ lim ∧
    (hybridSearch dist db q kws lim w).Sorted
      (fun a b => b.finalScore ≤ a.finalScore) ∧
    (∀ r ∈ hybridSearch dist db q kws lim w,
      r.finalScore = r.semanticScore * w + r.keywordScore * (1 - w) ∧
      r.semanticScore =
        poolSemScore (semanticResults dist db q (lim * 2)) r.caseId r.chunkId ∧
      r.keywordScore =
        poolKwScore (keywordResults db kws (lim * 2)) r.caseId r.chunkId ∧
      ((∃ s ∈ semanticResults dist db q (lim * 2),
          s.caseId = r.caseId ∧ s.chunkId = r.chunkId) ∨
       (∃ k ∈ keywordResults db kws (lim * 2),
          k.caseId = r.caseId ∧ k.chunkId = r.chunkId))) ∧
    (∀ s ∈ semanticResults dist db q (lim * 2),
      ∃ c ∈ hybridRows dist db q kws lim w,
        c.caseId = s.caseId ∧ c.chunkId = s.chunkId) ∧
    (∀ k ∈ keywordResults db kws (lim * 2),
      ∃ c ∈ hybridRows dist db q kws lim w,
        c.caseId = k.caseId ∧ c.chunkId = k.chunkId) ∧
    (∀ c ∈ hybridRows dist db q kws lim w,
      c ∉ hybridSearch dist db q kws lim w →
      ∀ r ∈ hybridSearch dist db q kws lim w, c.finalScore ≤ r.finalScore) := by
  obtain ⟨_, _, hch, hemb⟩ := hu
  refine ⟨take_length_le _ _, take_sortByScore_sorted _ _ _, ?_,
    (hybridRows_complete hri).1, (hybridRows_complete hri).2, ?_⟩
  · intro r hr
    have hsc := hybridRows_scores hemb hch (mem_of_mem_take_sortByScore hr)
    exact ⟨hsc.2.2.1, hsc.1, hsc.2.1, hsc.2.2.2⟩
  · intro c hc hnot r hr
    exact take_sortByScore_top hc hnot r hr

/-- A referentially intact database with two chunks, one embedded. -/
def dbHyb : DB :=
  { cases := [⟨1, "0001"⟩],
    documents := [⟨1, 1⟩],
    chunks := [⟨1, 1, "contrato"⟩, ⟨2, 1, "despejo"⟩],
    embeddings := [⟨1, 1, [1], "all-MiniLM-L6-v2"⟩] }

/-- C1 witness: the length bound of the hybrid contract on dbHyb. -/
theorem hybrid_search_correct_witness :
    (hybridSearch distZero dbHyb [0] ["despejo"] 2 (1 / 2)).length ≤ 2 :=
  (hybrid_search_correct distZero dbHyb [0] ["despejo"] 2 (1 / 2)
    (by with_unfolding_all decide) (by with_unfolding_all decide)).1

end JurisVector
